import Mathlib

/-!
Shallow embedding of `src/code/rhubarb_bridge.py`: the annotation parser
`parse_annotated_text`, the timeline resolver (the tag loop of `main`),
the phoneme translation table `RHUBARB_MAP`, and the schedule compactor
(the per-section dedup loop of the output writer), together with proofs
of the specification claims.

Modelling choices: Python strings are `List Char` (wrapped in `String` at
the top level); times (Python floats) are rationals `ℚ`; the 3-decimal
fixed formatting of times is not modelled, events keep their numeric
time.  The regex tokenizer is implemented with an explicit fuel argument
so that it evaluates by kernel reduction; `findTokens` always supplies
enough fuel.
-/

namespace RhubarbBridge

/-- Python's whitespace class (`\s`, `str.strip`), ASCII fragment. -/
def isPySpace (c : Char) : Bool :=
  c = ' ' || c = '\t' || c = '\n' || c = '\r' || c = '\x0b' || c = '\x0c'

/-- Python's word-character class `\w`, ASCII fragment. -/
def isWordChar (c : Char) : Bool :=
  c.isAlphanum || c = '_'

/-- `text.split('\n')`: Python splitting always returns at least one
(possibly empty) line; `"".split('\n') == ['']`. -/
def splitLines : List Char → List (List Char)
  | [] => [[]]
  | c :: cs =>
    if c = '\n' then [] :: splitLines cs
    else
      match splitLines cs with
      | [] => [[c]]
      | l :: ls => (c :: l) :: ls

/-- Scan for the first occurrence of `close`; on success return the
characters strictly before it together with the remainder after it. -/
def splitClose (close : Char) : List Char → Option (List Char × List Char)
  | [] => none
  | c :: cs =>
    if c = close then some ([], cs)
    else (splitClose close cs).map (fun p => (c :: p.1, p.2))

/-- Fuelled scanner for `re.findall(r'<[^>]+>|\[[^\]]+\]|\S+', line)`:
at each position skip whitespace, then try the two bracket alternatives
(match up to the first closing bracket, interior non-empty) before
falling back to a maximal non-whitespace run.  Each step consumes at
least one character, so fuel `length + 1` never runs out. -/
def findTokensF : Nat → List Char → List (List Char)
  | 0, _ => []
  | _, [] => []
  | fuel + 1, c :: cs =>
    if isPySpace c then findTokensF fuel cs
    else if c = '<' then
      match splitClose '>' cs with
      | some (inter, rest) =>
        if inter = [] then
          (c :: cs.takeWhile (fun x => ! isPySpace x)) ::
            findTokensF fuel (cs.dropWhile (fun x => ! isPySpace x))
        else ('<' :: inter ++ ['>']) :: findTokensF fuel rest
      | none =>
        (c :: cs.takeWhile (fun x => ! isPySpace x)) ::
          findTokensF fuel (cs.dropWhile (fun x => ! isPySpace x))
    else if c = '[' then
      match splitClose ']' cs with
      | some (inter, rest) =>
        if inter = [] then
          (c :: cs.takeWhile (fun x => ! isPySpace x)) ::
            findTokensF fuel (cs.dropWhile (fun x => ! isPySpace x))
        else ('[' :: inter ++ [']']) :: findTokensF fuel rest
      | none =>
        (c :: cs.takeWhile (fun x => ! isPySpace x)) ::
          findTokensF fuel (cs.dropWhile (fun x => ! isPySpace x))
    else
      (c :: cs.takeWhile (fun x => ! isPySpace x)) ::
        findTokensF fuel (cs.dropWhile (fun x => ! isPySpace x))

/-- `re.findall(r'<[^>]+>|\[[^\]]+\]|\S+', line)`. -/
def findTokens (l : List Char) : List (List Char) :=
  findTokensF (l.length + 1) l

/-- The kinds of structural tags produced by the parser. -/
inductive TagKind where
  | emotion
  | image
  | image_auto
deriving DecidableEq

/-- A structural tag: the Python 5-tuple
`(word_index, type, value, line_index, paragraph_index)`. -/
structure Tag where
  wordIdx : Nat
  kind : TagKind
  value : Nat
  lineIdx : Nat
  paraIdx : Nat
deriving DecidableEq

/-- The fixed emotion vocabulary of `parse_annotated_text`. -/
def emotionsMap (s : List Char) : Option Nat :=
  if s = "explain".toList then some 0
  else if s = "happy".toList then some 1
  else if s = "sad".toList then some 2
  else if s = "angry".toList then some 3
  else if s = "confused".toList then some 4
  else if s = "rq".toList then some 5
  else none

/-- Mutable state of a parser run: the word list, the running word
index, and the running paragraph index. -/
structure PState where
  words : List (List Char)
  wIdx : Nat
  pIdx : Nat
deriving DecidableEq

/-- Interior of a bracketed token: Python `token[1:-1]`. -/
def interior (tok : List Char) : List Char := (tok.drop 1).dropLast

/-- Handling of one token inside the per-line loop of
`parse_annotated_text`: angle-bracketed tokens consult the emotion
vocabulary, square-bracketed tokens emit an `image` tag whose value is
the line index, and anything else is stripped of non-word characters
and (when non-empty) appended as a word. -/
def tokStep (lIdx : Nat) (st : PState) (tok : List Char) : PState × List Tag :=
  if tok.head? = some '<' ∧ tok.getLast? = some '>' then
    match emotionsMap ((interior tok).map Char.toLower) with
    | some code => (st, [⟨st.wIdx, .emotion, code, lIdx, st.pIdx⟩])
    | none => (st, [])
  else if tok.head? = some '[' ∧ tok.getLast? = some ']' then
    (st, [⟨st.wIdx, .image, lIdx, lIdx, st.pIdx⟩])
  else
    let cleanWord := tok.filter (fun c => isWordChar c || isPySpace c)
    if cleanWord = [] then (st, [])
    else ({ st with words := st.words ++ [cleanWord], wIdx := st.wIdx + 1 }, [])

/-- The token loop over one line, returning the new state and the tags
appended by this line's tokens (in order). -/
def lineTokens (lIdx : Nat) : PState → List (List Char) → PState × List Tag
  | st, [] => (st, [])
  | st, tok :: toks =>
    let p1 := tokStep lIdx st tok
    let p2 := lineTokens lIdx p1.1 toks
    (p2.1, p1.2 ++ p2.2)

/-- One iteration of `parse_annotated_text`'s line loop: blank-line
paragraph detection, the token loop, then the trailing `image_auto` tag
at the current word, line and paragraph indices. -/
def doLine (lIdx : Nat) (st : PState) (line : List Char) : PState × List Tag :=
  let st0 := if line.all isPySpace ∧ 0 < lIdx then { st with pIdx := st.pIdx + 1 } else st
  let p := lineTokens lIdx st0 (findTokens line)
  (p.1, p.2 ++ [⟨p.1.wIdx, .image_auto, lIdx, lIdx, p.1.pIdx⟩])

/-- The line loop of `parse_annotated_text` (`for l_idx, line in
enumerate(lines)`), with the tags of successive lines concatenated in
encounter order. -/
def parseLoop : Nat → PState → List (List Char) → PState × List Tag
  | _, st, [] => (st, [])
  | lIdx, st, line :: rest =>
    let p1 := doLine lIdx st line
    let p2 := parseLoop (lIdx + 1) p1.1 rest
    (p2.1, p1.2 ++ p2.2)

/-- `parse_annotated_text(text)`: the word list and the tag list. -/
def parse_annotated_text (text : String) : List (List Char) × List Tag :=
  let p := parseLoop 0 ⟨[], 0, 0⟩ (splitLines text.toList)
  (p.1.words, p.2)

/-- One record of the external word-timestamp source (`vosk_words`);
`stop` models the Python key `'end'`. -/
structure TimedWord where
  start : ℚ
  stop : ℚ
deriving DecidableEq

/-- The `start_time` computation of the tag loop: `vosk_words[i]['start']`
when in range, else the last word's `'end'` when any words exist, else
`0.0`. -/
def lookupTime (vosk : List TimedWord) (i : Nat) : ℚ :=
  if h : i < vosk.length then (vosk.get ⟨i, h⟩).start
  else
    match vosk.getLast? with
    | some w => w.stop
    | none => 0

/-- The time-lookup rule in the specification's words: with no timing
source at all use `0.000`; for an in-range index use that word's start;
otherwise clamp to the end of the last timed word. -/
def specTagTime (vosk : List TimedWord) (i : Nat) : ℚ :=
  if hne : vosk = [] then 0
  else if h : i < vosk.length then (vosk.get ⟨i, h⟩).start
  else (vosk.getLast hne).stop

/-- A scheduled event: a time and a category-specific value. -/
structure Ev (α : Type) where
  time : ℚ
  value : α
deriving DecidableEq

/-- Mutable state of the tag-resolution loop in `main`: the two
"last index seen" sentinels (initialised to `-1`), the pose counter,
and the four per-category event lists built so far. -/
structure RState where
  lastL : Int
  lastP : Int
  pose : Nat
  par : List (Ev Nat)
  emo : List (Ev Nat)
  img : List (Ev Nat)
  poseEvs : List (Ev Nat)
deriving DecidableEq

/-- The line-change block of the tag loop (`if l_idx != last_l_idx`):
on a new line index append an image event (value = line index), advance
the pose counter mod 5, append the pose event and remember the line. -/
def imgStep (tm : ℚ) (lIdx : Nat) (st : RState) : RState :=
  if (lIdx : Int) ≠ st.lastL then
    { st with
      img := st.img ++ [⟨tm, lIdx⟩]
      pose := (st.pose + 1) % 5
      poseEvs := st.poseEvs ++ [⟨tm, (st.pose + 1) % 5⟩]
      lastL := (lIdx : Int) }
  else st

/-- The paragraph-change block of the tag loop
(`if p_idx != last_p_idx`). -/
def parStep (tm : ℚ) (pIdx : Nat) (st : RState) : RState :=
  if (pIdx : Int) ≠ st.lastP then
    { st with
      par := st.par ++ [⟨tm, pIdx⟩]
      lastP := (pIdx : Int) }
  else st

/-- One iteration of the tag loop of `main`: emotion tags append an
emotion event; `image`/`image_auto` tags run the line-change block and
then, independently, the paragraph-change block. -/
def stepTag (vosk : List TimedWord) (st : RState) (t : Tag) : RState :=
  let tm := lookupTime vosk t.wordIdx
  match t.kind with
  | .emotion => { st with emo := st.emo ++ [⟨tm, t.value⟩] }
  | .image | .image_auto => parStep tm t.paraIdx (imgStep tm t.lineIdx st)

/-- The state before the tag loop: the four default baseline lines
(`0.000,...,0`) pushed for paragraph, emotion, image and pose — and for
no other category — with both sentinels at `-1` and pose `0`. -/
def initR : RState :=
  { lastL := -1, lastP := -1, pose := 0
    par := [⟨0, 0⟩], emo := [⟨0, 0⟩], img := [⟨0, 0⟩], poseEvs := [⟨0, 0⟩] }

/-- The whole tag loop of `main`. -/
def resolveTags (vosk : List TimedWord) (tags : List Tag) : RState :=
  tags.foldl (stepTag vosk) initR

/-- One Rhubarb mouth cue: `(start, value)`. -/
structure Cue where
  start : ℚ
  value : String
deriving DecidableEq

/-- `RHUBARB_MAP.get(code, 'm')`: the fixed Rhubarb-to-LazyKH shape
table with default `'m'`. -/
def rhubarbMap (s : String) : String :=
  if s = "A" then "m"
  else if s = "B" then "t"
  else if s = "C" then "a"
  else if s = "D" then "a"
  else if s = "E" then "u"
  else if s = "F" then "au"
  else if s = "G" then "f"
  else if s = "H" then "y"
  else if s = "X" then "m"
  else "m"

/-- The phoneme pass of `main`: one event per cue, at the cue's own
timestamp, with the translated shape. -/
def phonemeEvents (cues : List Cue) : List (Ev String) :=
  cues.map (fun c => ⟨c.start, rhubarbMap c.value⟩)

/-- The five per-category event lists (`sections` in `main`). -/
structure Sched where
  par : List (Ev Nat)
  emo : List (Ev Nat)
  img : List (Ev Nat)
  poseS : List (Ev Nat)
  phon : List (Ev String)
deriving DecidableEq

/-- The five raw (pre-compaction) sections produced by `main` for a
given script text, word-timestamp list and cue list. -/
def rawSchedule (text : String) (vosk : List TimedWord) (cues : List Cue) : Sched :=
  let r := resolveTags vosk (parse_annotated_text text).2
  ⟨r.par, r.emo, r.img, r.poseEvs, phonemeEvents cues⟩

/-- The output writer's per-section dedup loop: `last_val` starts as
`None` and an event is kept exactly when its value differs from the
previous kept value. -/
def dedupFrom {α : Type} [DecidableEq α] (last : Option α) : List (Ev α) → List (Ev α)
  | [] => []
  | e :: es =>
    if some e.value = last then dedupFrom last es
    else e :: dedupFrom (some e.value) es

/-- Compaction of one section (`last_val = None` initially). -/
def dedup {α : Type} [DecidableEq α] (l : List (Ev α)) : List (Ev α) :=
  dedupFrom none l

/-- The five finalized (compacted) sections. -/
def schedule (text : String) (vosk : List TimedWord) (cues : List Cue) : Sched :=
  let r := rawSchedule text vosk cues
  ⟨dedup r.par, dedup r.emo, dedup r.img, dedup r.poseS, dedup r.phon⟩

/-- One line of the output document: an event record, the literal
`SECTION` delimiter line, or the single empty line a section with no
events contributes (Python writes `"\n".join([]) + "\n"`). -/
inductive Row where
  | entry : ℚ → String → String → Row
  | sep : Row
  | blankLine : Row
deriving DecidableEq

/-- The lines written for one section. -/
def sectionRows {α : Type} [DecidableEq α] (cat : String) (f : α → String)
    (l : List (Ev α)) : List Row :=
  if l = [] then [Row.blankLine]
  else l.map (fun e => Row.entry e.time cat (f e.value))

/-- The final document, as the list of written lines: the five sections
in fixed order, a `SECTION` delimiter after each of the first four and
no trailing delimiter. -/
def outputDoc (text : String) (vosk : List TimedWord) (cues : List Cue) : List Row :=
  let s := schedule text vosk cues
  sectionRows "paragraph" toString s.par ++ [Row.sep] ++
  sectionRows "emotion" toString s.emo ++ [Row.sep] ++
  sectionRows "image" toString s.img ++ [Row.sep] ++
  sectionRows "pose" toString s.poseS ++ [Row.sep] ++
  sectionRows "phoneme" (fun v => v) s.phon

/-- Event order by time. -/
def timeLE {α : Type} (a b : Ev α) : Prop := a.time ≤ b.time

instance {α : Type} : IsTrans (Ev α) timeLE :=
  ⟨fun _ _ _ h1 h2 => le_trans h1 h2⟩

instance {α : Type} (a b : Ev α) : Decidable (timeLE a b) :=
  inferInstanceAs (Decidable (a.time ≤ b.time))

/-- The event list is non-decreasing in time. -/
def ChronE {α : Type} (l : List (Ev α)) : Prop := List.Chain' timeLE l

instance {α : Type} (l : List (Ev α)) : Decidable (ChronE l) :=
  inferInstanceAs (Decidable (List.Chain' timeLE l))

/-- No two adjacent events of the list share a value. -/
def NoAdjDup {α : Type} [DecidableEq α] (l : List (Ev α)) : Prop :=
  List.Chain' (fun a b => a.value ≠ b.value) l

instance {α : Type} [DecidableEq α] (l : List (Ev α)) : Decidable (NoAdjDup l) :=
  inferInstanceAs (Decidable (List.Chain' _ l))

/-- A chronological word-timestamp source: starts are non-decreasing,
each word ends no earlier than it starts, and times are non-negative. -/
def voskChron (vosk : List TimedWord) : Prop :=
  List.Chain' (· ≤ ·) (vosk.map TimedWord.start) ∧
  (∀ w ∈ vosk, w.start ≤ w.stop) ∧ (∀ w ∈ vosk, 0 ≤ w.start)

/-- A chronological cue list: cue starts are non-decreasing. -/
def cuesChron (cues : List Cue) : Prop :=
  List.Chain' (· ≤ ·) (cues.map Cue.start)

/-- An image-producing tag kind. -/
def isImg (k : TagKind) : Prop := k = .image ∨ k = .image_auto

/-- The round-trip scenario script of the specification's §8. -/
def demoText : String := "Hello world\n<happy> [lake] More text\n"

/-- The three timed words of the round-trip scenario: starts
0.0, 0.5, 1.0 and ends 0.5, 1.0, 1.5. -/
def demoVosk : List TimedWord := [⟨0, 1/2⟩, ⟨1/2, 1⟩, ⟨1, 3/2⟩]

/-- Invariant tying the pose counter and the pose event values to the
number of accepted image transitions (the image events beyond the
baseline): after `k` transitions the counter is `k % 5` and the pose
values read `0, 1 % 5, 2 % 5, ...` up to `k % 5`. -/
def PoseInv (st : RState) : Prop :=
  1 ≤ st.img.length ∧
  st.pose = (st.img.length - 1) % 5 ∧
  st.poseEvs.map (fun e => e.value) =
    0 :: (List.range (st.img.length - 1)).map (fun k => (k + 1) % 5)

/-- The last event of the list (if any) is at time at most `b`. -/
def lastTimeLe {α : Type} (l : List (Ev α)) (b : ℚ) : Prop :=
  ∀ e ∈ l.getLast?, e.time ≤ b

/-- All four resolver-built section lists are chronological with last
times bounded by `b`. -/
def RChron (st : RState) (b : ℚ) : Prop :=
  (ChronE st.par ∧ lastTimeLe st.par b) ∧
  (ChronE st.emo ∧ lastTimeLe st.emo b) ∧
  (ChronE st.img ∧ lastTimeLe st.img b) ∧
  (ChronE st.poseEvs ∧ lastTimeLe st.poseEvs b)

/-! ### Compactor lemmas -/

theorem dedupFrom_sublist {α : Type} [DecidableEq α] :
    ∀ (l : List (Ev α)) (last : Option α), List.Sublist (dedupFrom last l) l := by
  intro l
  induction l with
  | nil => intro last; simp [dedupFrom]
  | cons e es ih =>
    intro last
    rw [dedupFrom]
    split
    · exact List.Sublist.cons e (ih last)
    · exact List.Sublist.cons₂ e (ih (some e.value))

theorem dedup_cons {α : Type} [DecidableEq α] (e : Ev α) (l : List (Ev α)) :
    dedup (e :: l) = e :: dedupFrom (some e.value) l := by
  simp [dedup, dedupFrom]

theorem dedupFrom_nodup {α : Type} [DecidableEq α] :
    ∀ (l : List (Ev α)) (last : Option α),
      NoAdjDup (dedupFrom last l) ∧
        ∀ e ∈ (dedupFrom last l).head?, some e.value ≠ last := by
  intro l
  induction l with
  | nil =>
    intro last
    refine ⟨by simp [dedupFrom, NoAdjDup], by simp [dedupFrom]⟩
  | cons e es ih =>
    intro last
    rw [dedupFrom]
    split
    case isTrue h => exact ih last
    case isFalse h =>
      refine ⟨?_, ?_⟩
      · rw [NoAdjDup, List.chain'_cons']
        refine ⟨?_, (ih (some e.value)).1⟩
        intro y hy hv
        exact (ih (some e.value)).2 y hy (by rw [hv])
      · intro x hx
        simp only [List.head?_cons, Option.mem_def, Option.some.injEq] at hx
        subst hx
        exact h

theorem dedup_nodup {α : Type} [DecidableEq α] (l : List (Ev α)) :
    NoAdjDup (dedup l) :=
  (dedupFrom_nodup l none).1

theorem dedupFrom_destutter {α : Type} [DecidableEq α] :
    ∀ (l : List (Ev α)) (v : α),
      v :: (dedupFrom (some v) l).map (fun e => e.value) =
        (l.map (fun e => e.value)).destutter' (· ≠ ·) v := by
  intro l
  induction l with
  | nil => intro v; simp [dedupFrom, List.destutter']
  | cons e es ih =>
    intro v
    rw [dedupFrom, List.map_cons, List.destutter'_cons]
    by_cases hv : e.value = v
    · rw [if_pos (by rw [hv]), if_neg (by simp [hv]), ih v]
    · rw [if_neg (by simp [hv]), if_pos (Ne.symm hv), List.map_cons,
        ← ih e.value]

theorem dedup_head {α : Type} [DecidableEq α] (e : Ev α) (l : List (Ev α)) :
    (dedup (e :: l)).head? = some e := by
  rw [dedup_cons]; rfl

/-- C8: the Compactor, scanning a section in order, keeps an event iff
its value differs from the previous kept value (here: its value list is
exactly Mathlib's adjacent-destutter of the input's value list), the
result is a sublist of the input (events are filtered, not mutated),
the first event is always kept, and a value displaced by a different
value in between reappears in the output (no set-based dedup). -/
theorem C8_compactor {α : Type} [DecidableEq α] (l : List (Ev α)) (e a b c : Ev α) :
    (dedup l).map (fun x => x.value) = (l.map (fun x => x.value)).destutter (· ≠ ·) ∧
    List.Sublist (dedup l) l ∧
    (dedup (e :: l)).head? = some e ∧
    (a.value ≠ b.value → c.value = a.value → dedup [a, b, c] = [a, b, c]) := by
  refine ⟨?_, dedupFrom_sublist l none, dedup_head e l, ?_⟩
  · cases l with
    | nil => simp [dedup, dedupFrom, List.destutter_nil]
    | cons x xs =>
      rw [dedup_cons, List.map_cons, List.map_cons, List.destutter_cons',
        dedupFrom_destutter]
  · intro hab hca
    have hcb : ¬ c.value = b.value := by rw [hca]; exact hab
    simp [dedup, dedupFrom, Ne.symm hab, hcb]

theorem C8_witness :
    ((dedup [⟨0, 0⟩, ⟨1, 0⟩] : List (Ev Nat)).map (fun x => x.value) =
      (([⟨0, 0⟩, ⟨1, 0⟩] : List (Ev Nat)).map (fun x => x.value)).destutter (· ≠ ·)) ∧
    (dedup [⟨0, 1⟩, ⟨1, 2⟩, ⟨2, 1⟩] : List (Ev Nat)) = [⟨0, 1⟩, ⟨1, 2⟩, ⟨2, 1⟩] :=
  ⟨(C8_compactor [⟨0, 0⟩, ⟨1, 0⟩] ⟨0, 0⟩ ⟨0, 1⟩ ⟨1, 2⟩ ⟨2, 1⟩).1,
   (C8_compactor [⟨0, 0⟩, ⟨1, 0⟩] ⟨0, 0⟩ ⟨0, 1⟩ ⟨1, 2⟩ ⟨2, 1⟩).2.2.2
     (by decide) (by decide)⟩

/-! ### Time lookup -/

/-- C3: the event time resolved for a tag with word index `i` is
`timedWords[i].start` when `i` is in range, the end of the last timed
word when the list is non-empty (clamping), and `0.000` when there is
no timing source at all. -/
theorem C3_time_lookup (vosk : List TimedWord) (i : Nat) :
    lookupTime vosk i = specTagTime vosk i := by
  unfold lookupTime specTagTime
  by_cases hne : vosk = []
  · subst hne; simp
  · rw [dif_neg hne]
    by_cases h : i < vosk.length
    · rw [dif_pos h, dif_pos h]
    · rw [dif_neg h, dif_neg h, List.getLast?_eq_getLast _ hne]

/-! ### Projection lemmas for the two tag-loop blocks -/

theorem parStep_keep (tm : ℚ) (pIdx : Nat) (st : RState) :
    (parStep tm pIdx st).img = st.img ∧
    (parStep tm pIdx st).pose = st.pose ∧
    (parStep tm pIdx st).poseEvs = st.poseEvs ∧
    (parStep tm pIdx st).lastL = st.lastL ∧
    (parStep tm pIdx st).emo = st.emo := by
  unfold parStep
  split <;> exact ⟨rfl, rfl, rfl, rfl, rfl⟩

theorem imgStep_keep (tm : ℚ) (lIdx : Nat) (st : RState) :
    (imgStep tm lIdx st).emo = st.emo ∧
    (imgStep tm lIdx st).par = st.par ∧
    (imgStep tm lIdx st).lastP = st.lastP := by
  unfold imgStep
  split <;> exact ⟨rfl, rfl, rfl⟩

theorem imgStep_skip (tm : ℚ) (lIdx : Nat) (st : RState)
    (h : (lIdx : Int) = st.lastL) : imgStep tm lIdx st = st := by
  unfold imgStep
  rw [if_neg]
  simp [h]

theorem imgStep_fire (tm : ℚ) (lIdx : Nat) (st : RState)
    (h : (lIdx : Int) ≠ st.lastL) :
    imgStep tm lIdx st =
      { st with
        img := st.img ++ [⟨tm, lIdx⟩]
        pose := (st.pose + 1) % 5
        poseEvs := st.poseEvs ++ [⟨tm, (st.pose + 1) % 5⟩]
        lastL := (lIdx : Int) } := by
  unfold imgStep
  rw [if_pos h]

/-! ### The resolver only appends to the section lists -/

theorem stepTag_prefix (vosk : List TimedWord) (st : RState) (t : Tag) :
    List.IsPrefix st.par (stepTag vosk st t).par ∧
    List.IsPrefix st.emo (stepTag vosk st t).emo ∧
    List.IsPrefix st.img (stepTag vosk st t).img ∧
    List.IsPrefix st.poseEvs (stepTag vosk st t).poseEvs := by
  unfold stepTag
  cases t.kind
  case emotion =>
    exact ⟨List.prefix_rfl, List.prefix_append _ _, List.prefix_rfl,
      List.prefix_rfl⟩
  all_goals
    dsimp only
    unfold parStep imgStep
    split <;> split <;> refine ⟨?_, ?_, ?_, ?_⟩ <;>
      simp [List.prefix_append]

theorem foldTags_prefix (vosk : List TimedWord) :
    ∀ (tags : List Tag) (st : RState),
      List.IsPrefix st.par ((tags.foldl (stepTag vosk) st).par) ∧
      List.IsPrefix st.emo ((tags.foldl (stepTag vosk) st).emo) ∧
      List.IsPrefix st.img ((tags.foldl (stepTag vosk) st).img) ∧
      List.IsPrefix st.poseEvs ((tags.foldl (stepTag vosk) st).poseEvs) := by
  intro tags
  induction tags with
  | nil =>
    intro st
    exact ⟨List.prefix_rfl, List.prefix_rfl, List.prefix_rfl, List.prefix_rfl⟩
  | cons t ts ih =>
    intro st
    rw [List.foldl_cons]
    have h1 := stepTag_prefix vosk st t
    have h2 := ih (stepTag vosk st t)
    exact ⟨h1.1.trans h2.1, h1.2.1.trans h2.2.1, h1.2.2.1.trans h2.2.2.1,
      h1.2.2.2.trans h2.2.2.2⟩

/-! ### Pose counter invariant (C5) -/

theorem parStep_poseInv (tm : ℚ) (pIdx : Nat) (st : RState)
    (h : PoseInv st) : PoseInv (parStep tm pIdx st) := by
  obtain ⟨hi, hp, hpe, _, _⟩ := parStep_keep tm pIdx st
  exact ⟨by rw [hi]; exact h.1, by rw [hp, hi]; exact h.2.1,
    by rw [hpe, hi]; exact h.2.2⟩

theorem imgStep_poseInv (tm : ℚ) (lIdx : Nat) (st : RState)
    (h : PoseInv st) : PoseInv (imgStep tm lIdx st) := by
  obtain ⟨h1, h2, h3⟩ := h
  by_cases hc : (lIdx : Int) = st.lastL
  · rw [imgStep_skip tm lIdx st hc]; exact ⟨h1, h2, h3⟩
  · rw [imgStep_fire tm lIdx st hc]
    have he : st.img.length + 1 - 1 = st.img.length - 1 + 1 := by omega
    refine ⟨?_, ?_, ?_⟩
    · simp
    · simp only [List.length_append, List.length_cons, List.length_nil,
        Nat.zero_add]
      rw [h2, he, Nat.mod_add_mod]
    · simp only [List.map_append, List.map_cons, List.map_nil,
        List.length_append, List.length_cons, List.length_nil,
        Nat.zero_add, h3]
      rw [he, List.range_succ, List.map_append, h2, Nat.mod_add_mod]
      simp

theorem stepTag_poseInv (vosk : List TimedWord) (st : RState) (t : Tag)
    (h : PoseInv st) : PoseInv (stepTag vosk st t) := by
  unfold stepTag
  cases t.kind
  case emotion => exact ⟨h.1, h.2.1, h.2.2⟩
  all_goals
    exact parStep_poseInv _ _ _ (imgStep_poseInv _ _ _ h)

theorem resolve_poseInv (vosk : List TimedWord) :
    ∀ (tags : List Tag) (st : RState), PoseInv st →
      PoseInv (tags.foldl (stepTag vosk) st) := by
  intro tags
  induction tags with
  | nil => intro st h; exact h
  | cons t ts ih =>
    intro st h
    rw [List.foldl_cons]
    exact ih _ (stepTag_poseInv vosk st t h)

/-- C5: after resolving any tag stream, the pose event values are
exactly `0, 1 % 5, 2 % 5, ..., T % 5` where `T` is the number of
accepted image transitions (image events beyond the baseline) — the
k-th accepted transition emits `k % 5` and pose is a pure function of
the transition count; moreover an image-kind tag whose line index
equals the last-triggering line index changes neither the pose events,
nor the image events, nor the pose counter. -/
theorem C5_pose_cycle (vosk : List TimedWord) (tags : List Tag)
    (st : RState) (t : Tag) :
    ((resolveTags vosk tags).poseEvs.map (fun e => e.value) =
      0 :: (List.range ((resolveTags vosk tags).img.length - 1)).map
        (fun k => (k + 1) % 5)) ∧
    (isImg t.kind → (t.lineIdx : Int) = st.lastL →
      (stepTag vosk st t).poseEvs = st.poseEvs ∧
      (stepTag vosk st t).img = st.img ∧
      (stepTag vosk st t).pose = st.pose) := by
  constructor
  · have h0 : PoseInv initR := by
      refine ⟨?_, ?_, ?_⟩ <;> simp [initR]
    exact (resolve_poseInv vosk tags initR h0).2.2
  · intro hk hl
    unfold stepTag
    rcases hk with h | h <;> rw [h] <;> dsimp only <;>
      rw [imgStep_skip _ _ _ hl] <;>
      exact ⟨(parStep_keep _ _ _).2.2.1, (parStep_keep _ _ _).1,
        (parStep_keep _ _ _).2.1⟩

theorem C5_witness :
    ((resolveTags [] [⟨0, .image_auto, 0, 0, 0⟩, ⟨0, .image_auto, 1, 1, 0⟩]).poseEvs.map
        (fun e => e.value) =
      0 :: (List.range ((resolveTags [] [⟨0, .image_auto, 0, 0, 0⟩,
        ⟨0, .image_auto, 1, 1, 0⟩]).img.length - 1)).map (fun k => (k + 1) % 5)) ∧
    ((stepTag [] { initR with lastL := 0 } ⟨0, .image_auto, 0, 0, 0⟩).poseEvs =
        ({ initR with lastL := 0 } : RState).poseEvs ∧
      (stepTag [] { initR with lastL := 0 } ⟨0, .image_auto, 0, 0, 0⟩).img =
        ({ initR with lastL := 0 } : RState).img ∧
      (stepTag [] { initR with lastL := 0 } ⟨0, .image_auto, 0, 0, 0⟩).pose =
        ({ initR with lastL := 0 } : RState).pose) :=
  ⟨(C5_pose_cycle [] [⟨0, .image_auto, 0, 0, 0⟩, ⟨0, .image_auto, 1, 1, 0⟩]
      { initR with lastL := 0 } ⟨0, .image_auto, 0, 0, 0⟩).1,
   (C5_pose_cycle [] [⟨0, .image_auto, 0, 0, 0⟩, ⟨0, .image_auto, 1, 1, 0⟩]
      { initR with lastL := 0 } ⟨0, .image_auto, 0, 0, 0⟩).2
     (Or.inr rfl) (by decide)⟩

/-! ### Claim C6: the emotion vocabulary -/

/-- C6: an angle-bracketed token whose lower-cased interior is in the
fixed vocabulary (explain=0, happy=1, sad=2, angry=3, confused=4, rq=5)
yields exactly one emotion tag with the mapped code at the current word
index, leaving the parser state unchanged; any other interior yields no
tag, no state change and no error; end-to-end, `<shout>` produces no
emotion event beyond the baseline, before and after compaction. -/
theorem C6_emotion_vocab (st : PState) (lIdx : Nat) (inter : List Char)
    (code : Nat) :
    (emotionsMap (inter.map Char.toLower) = some code →
      tokStep lIdx st ('<' :: inter ++ ['>']) =
        (st, [⟨st.wIdx, .emotion, code, lIdx, st.pIdx⟩])) ∧
    (emotionsMap (inter.map Char.toLower) = none →
      tokStep lIdx st ('<' :: inter ++ ['>']) = (st, [])) ∧
    (rawSchedule "<shout>" [] []).emo = [⟨0, 0⟩] ∧
    (schedule "<shout>" [] []).emo = [⟨0, 0⟩] := by
  have hcond : ('<' :: inter ++ ['>']).head? = some '<' ∧
      ('<' :: inter ++ ['>']).getLast? = some '>' := by
    refine ⟨rfl, ?_⟩
    rw [List.getLast?_concat]
  have hint : interior ('<' :: inter ++ ['>']) = inter := by
    simp [interior]
  refine ⟨?_, ?_, by decide, by decide⟩
  · intro hm
    rw [tokStep, if_pos hcond, hint, hm]
  · intro hm
    rw [tokStep, if_pos hcond, hint, hm]

theorem C6_witness :
    (tokStep 0 ⟨[], 0, 0⟩ ('<' :: "happy".toList ++ ['>']) =
      (⟨[], 0, 0⟩, [⟨0, .emotion, 1, 0, 0⟩])) ∧
    (tokStep 0 ⟨[], 0, 0⟩ ('<' :: "shout".toList ++ ['>']) =
      (⟨[], 0, 0⟩, [])) :=
  ⟨(C6_emotion_vocab ⟨[], 0, 0⟩ 0 "happy".toList 1).1 (by decide),
   (C6_emotion_vocab ⟨[], 0, 0⟩ 0 "shout".toList 0).2.1 (by decide)⟩

/-! ### Claim C7: the phoneme translation -/

/-- C7: the translation table maps A,B,C,D,E,F,G,H,X to
m,t,a,a,u,au,f,y,m; any code outside the table falls back to the
default closed-mouth token m (never a failure); and the phoneme pass
emits exactly one event per cue, at the cue's own timestamp, with the
translated shape. -/
theorem C7_phoneme_map (text : String) (vosk : List TimedWord)
    (cues : List Cue) (s : String) (i : Nat) :
    (["A", "B", "C", "D", "E", "F", "G", "H", "X"].map rhubarbMap =
      ["m", "t", "a", "a", "u", "au", "f", "y", "m"]) ∧
    (s ∉ ["A", "B", "C", "D", "E", "F", "G", "H", "X"] → rhubarbMap s = "m") ∧
    (rawSchedule text vosk cues).phon.length = cues.length ∧
    (∀ h : i < cues.length,
      (rawSchedule text vosk cues).phon[i]? =
        some ⟨(cues.get ⟨i, h⟩).start, rhubarbMap (cues.get ⟨i, h⟩).value⟩) := by
  refine ⟨by decide, ?_, ?_, ?_⟩
  · intro hs
    simp only [List.mem_cons, List.not_mem_nil, or_false, not_or] at hs
    obtain ⟨n1, n2, n3, n4, n5, n6, n7, n8, n9⟩ := hs
    unfold rhubarbMap
    rw [if_neg n1, if_neg n2, if_neg n3, if_neg n4, if_neg n5, if_neg n6,
      if_neg n7, if_neg n8, if_neg n9]
  · show (phonemeEvents cues).length = cues.length
    rw [phonemeEvents, List.length_map]
  · intro h
    show (phonemeEvents cues)[i]? = _
    rw [phonemeEvents, List.getElem?_map, List.getElem?_eq_getElem h]
    rfl

theorem C7_witness :
    rhubarbMap "Z" = "m" ∧
    (rawSchedule "" [] [⟨1, "Z"⟩]).phon[0]? = some ⟨1, rhubarbMap "Z"⟩ :=
  ⟨(C7_phoneme_map "" [] [⟨1, "Z"⟩] "Z" 0).2.1 (by decide),
   (C7_phoneme_map "" [] [⟨1, "Z"⟩] "Z" 0).2.2.2 (by decide)⟩

/-! ### Claims C1, C2, C9 -/

/-- C1 (amended): in the finalized schedule the paragraph, emotion,
image and pose sections each start with the synthetic baseline event at
time 0.000 with value 0, before any real event; the phoneme section has
no such baseline (see the counterexample). -/
theorem C1_four_baselines (text : String) (vosk : List TimedWord) (cues : List Cue) :
    (schedule text vosk cues).par.head? = some ⟨0, 0⟩ ∧
    (schedule text vosk cues).emo.head? = some ⟨0, 0⟩ ∧
    (schedule text vosk cues).img.head? = some ⟨0, 0⟩ ∧
    (schedule text vosk cues).poseS.head? = some ⟨0, 0⟩ := by
  have h := foldTags_prefix vosk (parse_annotated_text text).2 initR
  obtain ⟨h1, h2, h3, h4⟩ := h
  obtain ⟨t1, e1⟩ := h1
  obtain ⟨t2, e2⟩ := h2
  obtain ⟨t3, e3⟩ := h3
  obtain ⟨t4, e4⟩ := h4
  simp only [schedule, rawSchedule, resolveTags]
  rw [← e1, ← e2, ← e3, ← e4]
  simp only [initR, List.cons_append, List.nil_append]
  exact ⟨dedup_head _ _, dedup_head _ _, dedup_head _ _, dedup_head _ _⟩

/-- C1 counterexample: with a single phoneme cue at time 2.0, the
phoneme section of the finalized schedule starts at time 2, not with a
baseline event at time 0.000 — the code pushes default lines only for
the other four categories. -/
theorem C1_counterexample :
    ((schedule "" [] [⟨2, "A"⟩]).phon.map (fun e => e.time)).head? = some 2 ∧
    (2 : ℚ) ≠ 0 := by
  constructor
  · decide
  · decide

/-- C2 counterexample: for empty script text the Parser's tag list is
not empty — `"".split('\n')` yields one (empty) line in Python, and
that line's trailing `image_auto` tag is emitted. -/
theorem C2_counterexample : (parse_annotated_text "").2 ≠ [] := by decide

/-- C2 (amended): for empty script text the Parser returns no words and
exactly one `image_auto` tag at word 0, line 0, paragraph 0; the output
document then has exactly one baseline line in each of the paragraph,
emotion and image sections, two lines in the pose section (the baseline
and a pose-1 event at time 0.000 from the empty line's transition), a
single blank line for the (empty) phoneme section, and exactly four
`SECTION` delimiter lines with no trailing extra content. -/
theorem C2_empty_input :
    parse_annotated_text "" = ([], [⟨0, .image_auto, 0, 0, 0⟩]) ∧
    outputDoc "" [] [] =
      [Row.entry 0 "paragraph" "0", Row.sep,
       Row.entry 0 "emotion" "0", Row.sep,
       Row.entry 0 "image" "0", Row.sep,
       Row.entry 0 "pose" "0", Row.entry 0 "pose" "1", Row.sep,
       Row.blankLine] := by
  constructor
  · decide
  · decide

/-- C9 counterexample: on the round-trip scenario input the paragraph
section is not just the baseline — the trailing newline of the script
produces a blank third line, which increments the paragraph index and
yields a paragraph event at time 1.5. -/
theorem C9_counterexample :
    (schedule demoText demoVosk []).par ≠ [⟨0, 0⟩] := by
  intro h
  have hl : (schedule demoText demoVosk []).par.length = 2 := rfl
  rw [h] at hl
  simp at hl

/-- C9 (amended): on the round-trip scenario input, the emotion section
has the event (1.000, 1); the image section has the baseline for line 0
at 0.000, the line-1 event at 1.000 and a line-2 event at 1.500 (the
trailing blank line); the pose counter reaches 1 already at line 0's
transition (time 1.000, the start of the word after line 0's text) and
2 at line 1's transition; and the paragraph section holds the baseline
plus a paragraph-1 event at 1.500 caused by the trailing blank line. -/
theorem C9_roundtrip :
    schedule demoText demoVosk [] =
      ⟨[⟨0, 0⟩, ⟨3/2, 1⟩],
       [⟨0, 0⟩, ⟨1, 1⟩],
       [⟨0, 0⟩, ⟨1, 1⟩, ⟨3/2, 2⟩],
       [⟨0, 0⟩, ⟨1, 1⟩, ⟨1, 2⟩, ⟨3/2, 3⟩],
       []⟩ := rfl

/-! ### Structure of the parser output -/

theorem tokStep_spec (lIdx : Nat) (st : PState) (tok : List Char) :
    st.wIdx ≤ (tokStep lIdx st tok).1.wIdx ∧
    ((tokStep lIdx st tok).2 = [] ∨
      ∃ t : Tag, (tokStep lIdx st tok).2 = [t] ∧ t.wordIdx = st.wIdx ∧
        t.lineIdx = lIdx) := by
  unfold tokStep
  split
  · split
    · exact ⟨Nat.le_refl _, Or.inr ⟨_, rfl, rfl, rfl⟩⟩
    · exact ⟨Nat.le_refl _, Or.inl rfl⟩
  · split
    · exact ⟨Nat.le_refl _, Or.inr ⟨_, rfl, rfl, rfl⟩⟩
    · dsimp only
      split
      · exact ⟨Nat.le_refl _, Or.inl rfl⟩
      · exact ⟨Nat.le_succ _, Or.inl rfl⟩

theorem lineTokens_spec (lIdx : Nat) :
    ∀ (toks : List (List Char)) (st : PState),
      st.wIdx ≤ (lineTokens lIdx st toks).1.wIdx ∧
      List.Chain' (fun a b => a.wordIdx ≤ b.wordIdx) (lineTokens lIdx st toks).2 ∧
      ∀ t ∈ (lineTokens lIdx st toks).2,
        st.wIdx ≤ t.wordIdx ∧ t.wordIdx ≤ (lineTokens lIdx st toks).1.wIdx ∧
        t.lineIdx = lIdx := by
  intro toks
  induction toks with
  | nil =>
    intro st
    refine ⟨Nat.le_refl _, ?_, ?_⟩ <;> simp [lineTokens]
  | cons tok toks ih =>
    intro st
    obtain ⟨hw1, hcase⟩ := tokStep_spec lIdx st tok
    obtain ⟨hw2, hch2, hmem2⟩ := ih (tokStep lIdx st tok).1
    simp only [lineTokens]
    refine ⟨le_trans hw1 hw2, ?_, ?_⟩
    · rcases hcase with h0 | ⟨t, ht, htw, htl⟩
      · rw [h0, List.nil_append]; exact hch2
      · rw [ht, List.chain'_append]
        refine ⟨List.chain'_singleton _, hch2, ?_⟩
        intro x hx y hy
        simp only [List.getLast?_singleton, Option.mem_def,
          Option.some.injEq] at hx
        subst hx
        rw [htw]
        exact le_trans hw1 (hmem2 y (List.mem_of_mem_head? hy)).1
    · intro u hu
      rcases List.mem_append.mp hu with h | h
      · rcases hcase with h0 | ⟨t, ht, htw, htl⟩
        · rw [h0] at h; cases h
        · rw [ht] at h
          simp only [List.mem_singleton] at h
          subst h
          exact ⟨le_of_eq htw.symm, by rw [htw]; exact le_trans hw1 hw2, htl⟩
      · obtain ⟨m1, m2, m3⟩ := hmem2 u h
        exact ⟨le_trans hw1 m1, m2, m3⟩

theorem doLine_spec (lIdx : Nat) (st : PState) (line : List Char) :
    st.wIdx ≤ (doLine lIdx st line).1.wIdx ∧
    List.Chain' (fun a b => a.wordIdx ≤ b.wordIdx) (doLine lIdx st line).2 ∧
    (∀ t ∈ (doLine lIdx st line).2,
      st.wIdx ≤ t.wordIdx ∧ t.wordIdx ≤ (doLine lIdx st line).1.wIdx ∧
      t.lineIdx = lIdx) ∧
    (∃ t ∈ (doLine lIdx st line).2, isImg t.kind) := by
  simp only [doLine]
  set st0 : PState :=
    (if line.all isPySpace ∧ 0 < lIdx then { st with pIdx := st.pIdx + 1 } else st)
    with hst0
  set p := lineTokens lIdx st0 (findTokens line) with hp
  have hw0 : st0.wIdx = st.wIdx := by
    rw [hst0]; split <;> rfl
  obtain ⟨hw, hch, hmem⟩ := lineTokens_spec lIdx (findTokens line) st0
  rw [← hp] at hw hch hmem
  rw [hw0] at hw
  refine ⟨hw, ?_, ?_, ?_⟩
  · rw [List.chain'_append]
    refine ⟨hch, List.chain'_singleton _, ?_⟩
    intro x hx y hy
    simp only [List.head?_cons, Option.mem_def, Option.some.injEq] at hy
    subst hy
    exact ((hmem x (List.mem_of_getLast?_eq_some hx)).2.1)
  · intro t ht
    rcases List.mem_append.mp ht with h | h
    · obtain ⟨m1, m2, m3⟩ := hmem t h
      rw [hw0] at m1
      exact ⟨m1, m2, m3⟩
    · simp only [List.mem_singleton] at h
      subst h
      exact ⟨hw, Nat.le_refl _, rfl⟩
  · exact ⟨⟨p.1.wIdx, .image_auto, lIdx, lIdx, p.1.pIdx⟩,
      List.mem_append.mpr (Or.inr (by simp)), Or.inr rfl⟩

theorem parseLoop_spec :
    ∀ (lines : List (List Char)) (lIdx : Nat) (st : PState),
      st.wIdx ≤ (parseLoop lIdx st lines).1.wIdx ∧
      List.Chain' (fun a b => a.wordIdx ≤ b.wordIdx) (parseLoop lIdx st lines).2 ∧
      ∀ t ∈ (parseLoop lIdx st lines).2,
        st.wIdx ≤ t.wordIdx ∧ t.wordIdx ≤ (parseLoop lIdx st lines).1.wIdx := by
  intro lines
  induction lines with
  | nil =>
    intro lIdx st
    refine ⟨Nat.le_refl _, ?_, ?_⟩ <;> simp [parseLoop]
  | cons line rest ih =>
    intro lIdx st
    obtain ⟨hw1, hch1, hmem1, _⟩ := doLine_spec lIdx st line
    obtain ⟨hw2, hch2, hmem2⟩ := ih (lIdx + 1) (doLine lIdx st line).1
    simp only [parseLoop]
    refine ⟨le_trans hw1 hw2, ?_, ?_⟩
    · rw [List.chain'_append]
      refine ⟨hch1, hch2, ?_⟩
      intro x hx y hy
      exact le_trans ((hmem1 x (List.mem_of_getLast?_eq_some hx)).2.1)
        ((hmem2 y (List.mem_of_mem_head? hy)).1)
    · intro t ht
      rcases List.mem_append.mp ht with h | h
      · obtain ⟨m1, m2, _⟩ := hmem1 t h
        exact ⟨m1, le_trans m2 hw2⟩
      · obtain ⟨m1, m2⟩ := hmem2 t h
        exact ⟨le_trans hw1 m1, m2⟩

/-! ### Image transitions fire exactly once per line (C10) -/

theorem stepTag_emo_keep (vosk : List TimedWord) (st : RState) (t : Tag)
    (hkind : t.kind = .emotion) :
    (stepTag vosk st t).img = st.img ∧
    (stepTag vosk st t).poseEvs = st.poseEvs ∧
    (stepTag vosk st t).lastL = st.lastL ∧
    (stepTag vosk st t).pose = st.pose := by
  unfold stepTag
  rw [hkind]
  exact ⟨rfl, rfl, rfl, rfl⟩

theorem stepTag_img_skip (vosk : List TimedWord) (st : RState) (t : Tag)
    (hk : isImg t.kind) (hl : (t.lineIdx : Int) = st.lastL) :
    (stepTag vosk st t).img = st.img ∧
    (stepTag vosk st t).poseEvs = st.poseEvs ∧
    (stepTag vosk st t).lastL = st.lastL ∧
    (stepTag vosk st t).pose = st.pose := by
  unfold stepTag
  rcases hk with h | h <;> rw [h] <;> dsimp only <;>
    rw [imgStep_skip _ _ _ hl] <;>
    exact ⟨(parStep_keep _ _ _).1, (parStep_keep _ _ _).2.2.1,
      (parStep_keep _ _ _).2.2.2.1, (parStep_keep _ _ _).2.1⟩

theorem stepTag_img_fire (vosk : List TimedWord) (st : RState) (t : Tag)
    (hk : isImg t.kind) (hne : (t.lineIdx : Int) ≠ st.lastL) :
    (stepTag vosk st t).img =
      st.img ++ [⟨lookupTime vosk t.wordIdx, t.lineIdx⟩] ∧
    (stepTag vosk st t).poseEvs =
      st.poseEvs ++ [⟨lookupTime vosk t.wordIdx, (st.pose + 1) % 5⟩] ∧
    (stepTag vosk st t).lastL = (t.lineIdx : Int) := by
  unfold stepTag
  rcases hk with h | h <;> rw [h] <;> dsimp only <;>
    rw [imgStep_fire _ _ _ hne] <;>
    exact ⟨(parStep_keep _ _ _).1, (parStep_keep _ _ _).2.2.1,
      (parStep_keep _ _ _).2.2.2.1⟩

theorem foldSameLine (vosk : List TimedWord) :
    ∀ (G : List Tag) (st : RState),
      (∀ t ∈ G, (t.lineIdx : Int) = st.lastL) →
      (G.foldl (stepTag vosk) st).img = st.img ∧
      (G.foldl (stepTag vosk) st).poseEvs = st.poseEvs ∧
      (G.foldl (stepTag vosk) st).lastL = st.lastL ∧
      (G.foldl (stepTag vosk) st).pose = st.pose := by
  intro G
  induction G with
  | nil => intro st _; exact ⟨rfl, rfl, rfl, rfl⟩
  | cons t G ih =>
    intro st h
    rw [List.foldl_cons]
    have hst : (stepTag vosk st t).img = st.img ∧
        (stepTag vosk st t).poseEvs = st.poseEvs ∧
        (stepTag vosk st t).lastL = st.lastL ∧
        (stepTag vosk st t).pose = st.pose := by
      by_cases hk : isImg t.kind
      · exact stepTag_img_skip vosk st t hk (h t (by simp))
      · have he : t.kind = .emotion := by
          cases hkind : t.kind with
          | emotion => rfl
          | image => exact absurd (Or.inl hkind) hk
          | image_auto => exact absurd (Or.inr hkind) hk
        exact stepTag_emo_keep vosk st t he
    have hG : ∀ u ∈ G, (u.lineIdx : Int) = (stepTag vosk st t).lastL := by
      intro u hu
      rw [hst.2.2.1]
      exact h u (List.mem_cons_of_mem t hu)
    obtain ⟨i1, i2, i3, i4⟩ := ih (stepTag vosk st t) hG
    exact ⟨i1.trans hst.1, i2.trans hst.2.1, i3.trans hst.2.2.1,
      i4.trans hst.2.2.2⟩

theorem foldGroupLine (vosk : List TimedWord) :
    ∀ (G : List Tag) (st : RState) (l : Nat),
      (∀ t ∈ G, t.lineIdx = l) →
      (∃ t ∈ G, isImg t.kind) →
      st.lastL ≠ (l : Int) →
      (G.foldl (stepTag vosk) st).img.map (fun e => e.value) =
        st.img.map (fun e => e.value) ++ [l] ∧
      (G.foldl (stepTag vosk) st).poseEvs.length = st.poseEvs.length + 1 ∧
      (G.foldl (stepTag vosk) st).lastL = (l : Int) := by
  intro G
  induction G with
  | nil =>
    intro st l _ hex _
    rcases hex with ⟨t, ht, _⟩
    cases ht
  | cons t G ih =>
    intro st l hall hex hne
    rw [List.foldl_cons]
    by_cases hk : isImg t.kind
    · have hlt : t.lineIdx = l := hall t (by simp)
      have hne' : (t.lineIdx : Int) ≠ st.lastL := by
        rw [hlt]; exact fun hh => hne hh.symm
      obtain ⟨f1, f2, f3⟩ := stepTag_img_fire vosk st t hk hne'
      have hG : ∀ u ∈ G, (u.lineIdx : Int) = (stepTag vosk st t).lastL := by
        intro u hu
        rw [f3, hlt]
        exact congrArg (fun n : Nat => (n : Int))
          (hall u (List.mem_cons_of_mem t hu))
      obtain ⟨s1, s2, s3, _⟩ := foldSameLine vosk G (stepTag vosk st t) hG
      refine ⟨?_, ?_, ?_⟩
      · rw [s1, f1, List.map_append]
        simp [hlt]
      · rw [s2, f2, List.length_append]
        rfl
      · rw [s3, f3]
        exact congrArg (fun n : Nat => (n : Int)) hlt
    · have he : t.kind = .emotion := by
        cases hkind : t.kind with
        | emotion => rfl
        | image => exact absurd (Or.inl hkind) hk
        | image_auto => exact absurd (Or.inr hkind) hk
      obtain ⟨e1, e2, e3, _⟩ := stepTag_emo_keep vosk st t he
      have hex' : ∃ u ∈ G, isImg u.kind := by
        rcases hex with ⟨u, hu, hku⟩
        rcases List.mem_cons.mp hu with rfl | hu'
        · exact absurd hku hk
        · exact ⟨u, hu', hku⟩
      have hall' : ∀ u ∈ G, u.lineIdx = l :=
        fun u hu => hall u (List.mem_cons_of_mem t hu)
      have hne' : (stepTag vosk st t).lastL ≠ (l : Int) := by
        rw [e3]; exact hne
      obtain ⟨i1, i2, i3⟩ := ih (stepTag vosk st t) l hall' hex' hne'
      refine ⟨?_, ?_, i3⟩
      · rw [i1, e1]
      · rw [i2, e2]

theorem parseResolve (vosk : List TimedWord) :
    ∀ (lines : List (List Char)) (lIdx : Nat) (pst : PState) (rst : RState),
      rst.lastL = (lIdx : Int) - 1 →
      ((parseLoop lIdx pst lines).2.foldl (stepTag vosk) rst).img.map
          (fun e => e.value) =
        rst.img.map (fun e => e.value) ++ List.range' lIdx lines.length ∧
      ((parseLoop lIdx pst lines).2.foldl (stepTag vosk) rst).poseEvs.length =
        rst.poseEvs.length + lines.length ∧
      ((parseLoop lIdx pst lines).2.foldl (stepTag vosk) rst).lastL =
        (lIdx : Int) + lines.length - 1 := by
  intro lines
  induction lines with
  | nil =>
    intro lIdx pst rst hl
    refine ⟨by simp [parseLoop], by simp [parseLoop], ?_⟩
    simp only [parseLoop, List.foldl_nil, List.length_nil]
    rw [hl]
    push_cast
    ring
  | cons line rest ih =>
    intro lIdx pst rst hl
    simp only [parseLoop, List.foldl_append]
    obtain ⟨_, _, hmem, hex⟩ := doLine_spec lIdx pst line
    have hall : ∀ t ∈ (doLine lIdx pst line).2, t.lineIdx = lIdx :=
      fun t ht => (hmem t ht).2.2
    have hne : rst.lastL ≠ (lIdx : Int) := by rw [hl]; omega
    obtain ⟨g1, g2, g3⟩ :=
      foldGroupLine vosk (doLine lIdx pst line).2 rst lIdx hall hex hne
    have hmid : ((doLine lIdx pst line).2.foldl (stepTag vosk) rst).lastL =
        ((lIdx + 1 : Nat) : Int) - 1 := by
      rw [g3]; push_cast; ring
    obtain ⟨r1, r2, r3⟩ :=
      ih (lIdx + 1) (doLine lIdx pst line).1
        ((doLine lIdx pst line).2.foldl (stepTag vosk) rst) hmid
    refine ⟨?_, ?_, ?_⟩
    · rw [r1, g1, List.append_assoc, List.length_cons, List.range'_succ,
        List.singleton_append]
    · rw [r2, g2, List.length_cons]
      omega
    · rw [r3, List.length_cons]
      push_cast
      ring

/-- C10: in the raw schedule, every line of the script — blank lines
included — triggers exactly one accepted image transition: the raw
image event values are the baseline 0 followed by the line indices
`0, 1, ..., L-1` (strictly increasing beyond the baseline), and the
number of pose events beyond the baseline equals the number `L` of
lines of the input. -/
theorem C10_line_transitions (text : String) (vosk : List TimedWord)
    (cues : List Cue) :
    (rawSchedule text vosk cues).img.map (fun e => e.value) =
      0 :: List.range (splitLines text.toList).length ∧
    List.Chain' (· < ·)
      ((rawSchedule text vosk cues).img.map (fun e => e.value)).tail ∧
    (rawSchedule text vosk cues).poseS.length =
      1 + (splitLines text.toList).length := by
  have h0 : initR.lastL = ((0 : Nat) : Int) - 1 := by decide
  obtain ⟨h1, h2, h3⟩ :=
    parseResolve vosk (splitLines text.toList) 0 ⟨[], 0, 0⟩ initR h0
  have himg : (rawSchedule text vosk cues).img =
      ((parseLoop 0 ⟨[], 0, 0⟩ (splitLines text.toList)).2.foldl
        (stepTag vosk) initR).img := rfl
  have hpose : (rawSchedule text vosk cues).poseS =
      ((parseLoop 0 ⟨[], 0, 0⟩ (splitLines text.toList)).2.foldl
        (stepTag vosk) initR).poseEvs := rfl
  refine ⟨?_, ?_, ?_⟩
  · rw [himg, h1]
    show [(0 : Nat)] ++ List.range' 0 (splitLines text.toList).length =
      0 :: List.range (splitLines text.toList).length
    rw [List.range_eq_range']
    rfl
  · rw [himg, h1]
    show List.Chain' (· < ·) (List.range' 0 (splitLines text.toList).length)
    rw [← List.range_eq_range']
    exact List.chain'_iff_pairwise.mpr (List.pairwise_lt_range _)
  · rw [hpose, h2]
    rfl

/-! ### Chronology (C4) -/

theorem lookupTime_mono (vosk : List TimedWord)
    (hs : List.Chain' (· ≤ ·) (vosk.map TimedWord.start))
    (hse : ∀ w ∈ vosk, w.start ≤ w.stop) {i j : Nat} (hij : i ≤ j) :
    lookupTime vosk i ≤ lookupTime vosk j := by
  have hp := List.chain'_iff_pairwise.mp hs
  have hstart : ∀ (a b : Nat) (ha : a < vosk.length) (hb : b < vosk.length),
      a ≤ b → (vosk.get ⟨a, ha⟩).start ≤ (vosk.get ⟨b, hb⟩).start := by
    intro a b ha hb hab
    rcases Nat.lt_or_ge a b with hlt | hge
    · have := List.pairwise_iff_get.mp hp
        ⟨a, by simpa using ha⟩ ⟨b, by simpa using hb⟩ hlt
      simpa using this
    · have hba : a = b := Nat.le_antisymm hab hge
      subst hba
      exact le_refl _
  have hlastStop : ∀ (a : Nat) (ha : a < vosk.length) (hne : vosk ≠ []),
      (vosk.get ⟨a, ha⟩).start ≤ (vosk.getLast hne).stop := by
    intro a ha hne
    rw [List.getLast_eq_getElem]
    have h1 : (vosk.get ⟨a, ha⟩).start ≤
        (vosk.get ⟨vosk.length - 1, by omega⟩).start :=
      hstart a (vosk.length - 1) ha (by omega) (by omega)
    exact le_trans h1 (hse _ (vosk.get_mem _ _))
  unfold lookupTime
  by_cases hi : i < vosk.length
  · by_cases hj : j < vosk.length
    · rw [dif_pos hi, dif_pos hj]
      exact hstart i j hi hj hij
    · have hne : vosk ≠ [] := by
        intro h
        rw [h] at hi
        simp at hi
      rw [dif_pos hi, dif_neg hj, List.getLast?_eq_getLast _ hne]
      exact hlastStop i hi hne
  · have hj : ¬ j < vosk.length := by omega
    rw [dif_neg hi, dif_neg hj]

theorem lookupTime_nonneg (vosk : List TimedWord)
    (h0 : ∀ w ∈ vosk, 0 ≤ w.start)
    (hse : ∀ w ∈ vosk, w.start ≤ w.stop) (i : Nat) :
    0 ≤ lookupTime vosk i := by
  unfold lookupTime
  by_cases hi : i < vosk.length
  · rw [dif_pos hi]
    exact h0 _ (vosk.get_mem _ _)
  · rw [dif_neg hi]
    cases hgl : vosk.getLast? with
    | none => exact le_refl 0
    | some w =>
      have hw := List.mem_of_getLast?_eq_some hgl
      exact le_trans (h0 w hw) (hse w hw)

theorem chronE_snoc {α : Type} (l : List (Ev α)) (b : ℚ) (v : α)
    (hc : ChronE l) (hb : lastTimeLe l b) :
    ChronE (l ++ [⟨b, v⟩]) ∧ lastTimeLe (l ++ [⟨b, v⟩]) b := by
  constructor
  · rw [ChronE, List.chain'_append]
    refine ⟨hc, List.chain'_singleton _, ?_⟩
    intro x hx y hy
    simp only [List.head?_cons, Option.mem_def, Option.some.injEq] at hy
    subst hy
    exact hb x hx
  · intro e he
    rw [List.getLast?_concat] at he
    simp only [Option.mem_def, Option.some.injEq] at he
    subst he
    exact le_refl b

theorem lastTimeLe_mono {α : Type} {l : List (Ev α)} {b c : ℚ}
    (h : lastTimeLe l b) (hbc : b ≤ c) : lastTimeLe l c :=
  fun e he => le_trans (h e he) hbc

theorem RChron_mono {st : RState} {b c : ℚ} (h : RChron st b) (hbc : b ≤ c) :
    RChron st c :=
  ⟨⟨h.1.1, lastTimeLe_mono h.1.2 hbc⟩,
   ⟨h.2.1.1, lastTimeLe_mono h.2.1.2 hbc⟩,
   ⟨h.2.2.1.1, lastTimeLe_mono h.2.2.1.2 hbc⟩,
   ⟨h.2.2.2.1, lastTimeLe_mono h.2.2.2.2 hbc⟩⟩

theorem stepTag_chron (vosk : List TimedWord) (st : RState) (t : Tag)
    (h : RChron st (lookupTime vosk t.wordIdx)) :
    RChron (stepTag vosk st t) (lookupTime vosk t.wordIdx) := by
  unfold stepTag
  cases t.kind
  case emotion =>
    obtain ⟨hp, he, hi, hps⟩ := h
    exact ⟨hp, chronE_snoc _ _ _ he.1 he.2, hi, hps⟩
  all_goals
    dsimp only
    have h1 : RChron (imgStep (lookupTime vosk t.wordIdx) t.lineIdx st)
        (lookupTime vosk t.wordIdx) := by
      unfold imgStep
      split
      · obtain ⟨hp, he, hi, hps⟩ := h
        exact ⟨hp, he, chronE_snoc _ _ _ hi.1 hi.2,
          chronE_snoc _ _ _ hps.1 hps.2⟩
      · exact h
    unfold parStep
    split
    · obtain ⟨hp, he, hi, hps⟩ := h1
      exact ⟨chronE_snoc _ _ _ hp.1 hp.2, he, hi, hps⟩
    · exact h1

theorem foldTags_chron (vosk : List TimedWord) :
    ∀ (tags : List Tag) (st : RState) (b : ℚ),
      RChron st b →
      List.Chain' (· ≤ ·)
        (b :: tags.map (fun t => lookupTime vosk t.wordIdx)) →
      ChronE (tags.foldl (stepTag vosk) st).par ∧
      ChronE (tags.foldl (stepTag vosk) st).emo ∧
      ChronE (tags.foldl (stepTag vosk) st).img ∧
      ChronE (tags.foldl (stepTag vosk) st).poseEvs := by
  intro tags
  induction tags with
  | nil =>
    intro st b h _
    exact ⟨h.1.1, h.2.1.1, h.2.2.1.1, h.2.2.2.1⟩
  | cons t ts ih =>
    intro st b h hch
    rw [List.map_cons] at hch
    obtain ⟨hbt, hch'⟩ := List.chain'_cons.mp hch
    rw [List.foldl_cons]
    exact ih (stepTag vosk st t) (lookupTime vosk t.wordIdx)
      (stepTag_chron vosk st t (RChron_mono h hbt)) hch'

theorem dedup_chronE {α : Type} [DecidableEq α] (l : List (Ev α))
    (h : ChronE l) : ChronE (dedup l) :=
  List.Chain'.sublist h (dedupFrom_sublist l none)

/-- C4 (amended): for all inputs, all five finalized sections contain
no two adjacent events with equal value; and provided the word-
timestamp source is chronological (non-decreasing starts, start ≤ end,
non-negative times) and the cue list is chronological (non-decreasing
starts), all five finalized sections are non-decreasing in time.  The
unconditional time claim fails for adversarial timing inputs (see the
counterexample). -/
theorem C4_chron_nodup (text : String) (vosk : List TimedWord)
    (cues : List Cue) :
    (NoAdjDup (schedule text vosk cues).par ∧
     NoAdjDup (schedule text vosk cues).emo ∧
     NoAdjDup (schedule text vosk cues).img ∧
     NoAdjDup (schedule text vosk cues).poseS ∧
     NoAdjDup (schedule text vosk cues).phon) ∧
    (voskChron vosk → cuesChron cues →
      ChronE (schedule text vosk cues).par ∧
      ChronE (schedule text vosk cues).emo ∧
      ChronE (schedule text vosk cues).img ∧
      ChronE (schedule text vosk cues).poseS ∧
      ChronE (schedule text vosk cues).phon) := by
  constructor
  · exact ⟨dedup_nodup _, dedup_nodup _, dedup_nodup _, dedup_nodup _,
      dedup_nodup _⟩
  · rintro ⟨hs, hse, h0⟩ hcue
    obtain ⟨_, hch, _⟩ := parseLoop_spec (splitLines text.toList) 0 ⟨[], 0, 0⟩
    have htimes : List.Chain' (· ≤ ·)
        ((0 : ℚ) :: ((parseLoop 0 ⟨[], 0, 0⟩ (splitLines text.toList)).2.map
          (fun t => lookupTime vosk t.wordIdx))) := by
      rw [List.chain'_cons']
      constructor
      · intro y hy
        obtain ⟨t, _, rfl⟩ := List.mem_map.mp (List.mem_of_mem_head? hy)
        exact lookupTime_nonneg vosk h0 hse t.wordIdx
      · rw [List.chain'_map]
        exact hch.imp (fun a b hab => lookupTime_mono vosk hs hse hab)
    have hsingle : ∀ v : Nat, ChronE [(⟨0, v⟩ : Ev Nat)] ∧
        lastTimeLe [(⟨0, v⟩ : Ev Nat)] 0 := by
      intro v
      refine ⟨List.chain'_singleton _, ?_⟩
      intro e he
      simp only [List.getLast?_singleton, Option.mem_def,
        Option.some.injEq] at he
      subst he
      exact le_refl 0
    have h00 : RChron initR 0 :=
      ⟨hsingle 0, hsingle 0, hsingle 0, hsingle 0⟩
    obtain ⟨c1, c2, c3, c4⟩ := foldTags_chron vosk
      (parseLoop 0 ⟨[], 0, 0⟩ (splitLines text.toList)).2 initR 0 h00 htimes
    have cph : ChronE (phonemeEvents cues) := by
      rw [ChronE, phonemeEvents, List.chain'_map]
      rw [cuesChron, List.chain'_map] at hcue
      exact hcue
    exact ⟨dedup_chronE _ c1, dedup_chronE _ c2, dedup_chronE _ c3,
      dedup_chronE _ c4, dedup_chronE _ cph⟩

/-- C4 counterexample: with phoneme cues given out of order (times 5
then 1), the finalized phoneme section is not non-decreasing in time,
so the claim does not hold for arbitrary inputs. -/
theorem C4_counterexample :
    ¬ ChronE (schedule "" [] [⟨5, "A"⟩, ⟨1, "B"⟩]).phon := by
  intro h
  have he : (schedule "" [] [⟨5, "A"⟩, ⟨1, "B"⟩]).phon =
      [⟨5, "m"⟩, ⟨1, "t"⟩] := rfl
  rw [he] at h
  obtain ⟨h1, _⟩ := List.chain'_cons.mp h
  norm_num [timeLE] at h1

theorem C4_witness :
    (NoAdjDup (schedule "hi" [] []).par ∧
     NoAdjDup (schedule "hi" [] []).emo ∧
     NoAdjDup (schedule "hi" [] []).img ∧
     NoAdjDup (schedule "hi" [] []).poseS ∧
     NoAdjDup (schedule "hi" [] []).phon) ∧
    (ChronE (schedule "hi" [] []).par ∧
     ChronE (schedule "hi" [] []).emo ∧
     ChronE (schedule "hi" [] []).img ∧
     ChronE (schedule "hi" [] []).poseS ∧
     ChronE (schedule "hi" [] []).phon) :=
  ⟨(C4_chron_nodup "hi" [] []).1,
   (C4_chron_nodup "hi" [] []).2
     ⟨List.chain'_nil, fun w hw => absurd hw (List.not_mem_nil w),
      fun w hw => absurd hw (List.not_mem_nil w)⟩
     List.chain'_nil⟩

end RhubarbBridge
